import Mathlib

/-!
Verification of the bit-cursor library (bitbuf).

Shallow embedding of `src/lib.rs`.  Conventions used throughout:

* Bytes (`u8`) are modelled as `Nat`; wherever a Rust `u8` operation
  truncates (shift left), the model applies `% 256` explicitly.
  Masking with values below 256 needs no truncation and gets none.
* Byte buffers (`&[u8]`, `&mut [u8]`) are `List Nat`.
* Slice indexing `data[i]` is modelled with `List.getD`, guarded by an
  explicit bounds check that reports the out-of-bounds panic; a Rust
  `panic!` (out-of-bounds index, or `.unwrap()` / `.expect` on an error)
  is the `none` value of an `Option` result.  `some (Except.error ())`
  is a normal `Err` return (`Insufficient` or `Overflow` depending on
  the function's signature), `some (Except.ok _)` a normal `Ok`.
* A reader cursor (`BitSlice`) borrows its slice immutably, so advancing
  is modelled by dropping bytes from the front of `data`, exactly as the
  Rust code reassigns `self.data = self.data.get(k..)`.
* A writer cursor (`BitSliceMut`) mutates through its slice, so the model
  keeps the whole underlying allocation `buf` together with the byte
  offset `off` of the current view (a `&mut [u8]` is a base pointer plus
  a length; re-slicing moves the base, which is `off` here).  The view's
  byte `i` is `buf[off + i]`.
* The Rust field `prefix` is a keyword in Lean and is called `pfx`.
-/

/-- Reader cursor: models `BitSlice { data: &[u8], prefix: u8, len: usize }`. -/
structure BitSlice where
  data : List Nat
  pfx : Nat
  len : Nat
deriving Repr, DecidableEq

namespace BitSlice

/-- Models `BitSlice::new`. -/
def new (data : List Nat) : BitSlice := ⟨data, 0, 0⟩

/-- Models `BitSlice::remaining`: `self.data.len() * 8 - self.prefix`. -/
def remaining (s : BitSlice) : Nat := s.data.length * 8 - s.pfx

/-- Models `BitSlice::advance`.  The first component is the returned
`Result<(), Insufficient>`, the second the cursor after the call (Rust
mutates `self` in place; on the early `Insufficient` return the state is
untouched, and on the never-taken `get(..)` failure paths only `prefix`
has been updated, mirroring the order of the mutations in the source). -/
def advance (s : BitSlice) (bits : Nat) : Except Unit Unit × BitSlice :=
  if bits > s.remaining then (.error (), s)
  else
    let p := s.pfx + bits % 8
    if 8 ≤ p then
      if s.data.length < bits / 8 + 1 then (.error (), { s with pfx := p - 8 })
      else (.ok (), ⟨s.data.drop (bits / 8 + 1), p - 8, s.len + bits⟩)
    else
      if s.data.length < bits / 8 then (.error (), { s with pfx := p })
      else (.ok (), ⟨s.data.drop (bits / 8), p, s.len + bits⟩)

/-- Models the private `BitSlice::data_at_offset`.  `none` is an
out-of-bounds slice-index panic, `some (Except.error ())` is
`Err(Insufficient)`. -/
def data_at_offset (s : BitSlice) (offset size : Nat) : Option (Except Unit Nat) :=
  let len := s.remaining
  let offset := s.pfx + offset
  if offset = 0 then
    if len = 0 then some (.error ())
    else if s.data.length = 0 then none
    else some (.ok (s.data.getD 0 0))
  else if len < size then some (.error ())
  else
    let offset_bytes := offset / 8
    let offset_rem := offset % 8
    if offset_rem = 0 then
      if s.data.length ≤ offset_bytes then none
      else some (.ok (s.data.getD offset_bytes 0))
    else
      let offset_rem_inv := 8 - offset_rem
      if size + offset_rem ≤ 8 then
        if s.data.length ≤ offset_bytes then none
        else some (.ok ((s.data.getD offset_bytes 0 &&& (255 >>> offset_rem)) <<< offset_rem))
      else
        if s.data.length ≤ offset_bytes + 1 then none
        else some (.ok
          ((s.data.getD offset_bytes 0 &&& (255 >>> offset_rem)) <<< offset_rem
            + ((s.data.getD (offset_bytes + 1) 0 &&& ((255 <<< offset_rem_inv) % 256))
                >>> offset_rem_inv)))

/-- Models the private `BitSlice::byte_at_offset`. -/
def byte_at_offset (s : BitSlice) (offset : Nat) : Option (Except Unit Nat) :=
  s.data_at_offset offset 8

/-- Total variant of `data_at_offset` used to state properties of values
the source has already unwrapped (defaults to 0 outside the `Ok` case). -/
def data_at_offsetD (s : BitSlice) (offset size : Nat) : Nat :=
  match s.data_at_offset offset size with
  | some (.ok v) => v
  | _ => 0

/-- The byte-copy loop of `BitSlice::read`:
`for i in 0..bytes { dst[i] = self.byte_at_offset(i * 8)...unwrap(); }`.
`none` is the `.unwrap()` panic (or an out-of-bounds store). -/
def readLoop (s : BitSlice) (dst : List Nat) : Nat → Option (List Nat)
  | 0 => some dst
  | n + 1 =>
    match s.readLoop dst n with
    | none => none
    | some d =>
      match s.byte_at_offset (n * 8) with
      | some (.ok v) => if dst.length ≤ n then none else some (d.set n v)
      | _ => none

/-- Models `BitSlice::read` (the `BitBuf` impl).  On `Ok` it returns the
cursor after the final `advance`, the destination slice contents, and the
number of bits read; `some (Except.error ())` is `Err(Overflow)`. -/
def read (s : BitSlice) (dst : List Nat) (bits : Nat) :
    Option (Except Unit (BitSlice × List Nat × Nat)) :=
  let re := s.remaining
  let bits := if bits > re then re else bits
  let bytes := bits / 8
  let len := dst.length
  if len * 8 < bits then some (.error ())
  else
    match s.readLoop dst bytes with
    | none => none
    | some dst1 =>
      let rem := bits % 8
      if rem ≠ 0 then
        if len < bytes + 1 then some (.error ())
        else
          match s.data_at_offset (bytes * 8) rem with
          | some (.ok v) =>
            let byte := v &&& ((255 <<< (8 - rem)) % 256)
            -- `dst[bytes] |= byte; dst[bytes] &= byte;`
            let dst2 := dst1.set bytes ((dst1.getD bytes 0 ||| byte) &&& byte)
            match s.advance bits with
            | (.ok _, s') => some (.ok (s', dst2, bits))
            | (.error _, _) => none
          | _ => none
      else
        match s.advance bits with
        | (.ok _, s') => some (.ok (s', dst1, bits))
        | (.error _, _) => none

/-- Models `BitSlice::read_bool`. -/
def read_bool (s : BitSlice) : Option (Except Unit (Bool × BitSlice)) :=
  match s.data_at_offset 0 1 with
  | none => none
  | some (.error e) => some (.error e)
  | some (.ok byte) =>
    match s.advance 1 with
    | (.ok _, s') => some (.ok (byte &&& 128 != 0, s'))
    | (.error _, _) => none

/-- Models `BitSlice::read_byte` (the `BitBuf` impl's override). -/
def read_byte (s : BitSlice) : Option (Except Unit (Nat × BitSlice)) :=
  match s.byte_at_offset 0 with
  | none => none
  | some (.error e) => some (.error e)
  | some (.ok byte) =>
    match s.advance 8 with
    | (.ok _, s') => some (.ok (byte, s'))
    | (.error _, _) => none

/-- The byte loop of `BitSlice::read_aligned`'s else-branch:
`for i in 0..dst.len() { dst[i] = self.byte_at_offset(i * 8).unwrap(); }`. -/
def readAlignedLoop (s : BitSlice) (dst : List Nat) : Nat → Option (List Nat)
  | 0 => some dst
  | n + 1 =>
    match s.readAlignedLoop dst n with
    | none => none
    | some d =>
      match s.byte_at_offset (n * 8) with
      | some (.ok v) => if dst.length ≤ n then none else some (d.set n v)
      | _ => none

/-- Models `BitSlice::read_aligned` (the `BitBuf` impl's override).
Note the source reassigns the byte length `len` to the *bit* count
`re` when clamping, and its else-branch loops over all of `dst` without
advancing the cursor; both quirks are reproduced. -/
def read_aligned (s : BitSlice) (dst : List Nat) : Option (BitSlice × List Nat × Nat) :=
  let re := s.remaining
  let len := dst.length
  let len := if len * 8 > re then re else len
  if len % 8 ≠ 0 then
    match s.read dst (len * 8) with
    | some (.ok (s', d', n)) => some (s', d', n)
    | _ => none
  else
    match s.readAlignedLoop dst dst.length with
    | none => none
    | some d' => some (s, d', len)

end BitSlice

/-- Writer cursor: models `BitSliceMut { data: &mut [u8], prefix: u8, len: usize }`.
`buf` is the underlying allocation, `off` the byte offset of the current
view (`self.data` in the source is `buf[off..]`). -/
structure BitSliceMut where
  buf : List Nat
  off : Nat
  pfx : Nat
  len : Nat
deriving Repr, DecidableEq

namespace BitSliceMut

/-- Models `BitSliceMut::new`. -/
def new (buf : List Nat) : BitSliceMut := ⟨buf, 0, 0, 0⟩

/-- Length of the current view `self.data`. -/
def viewLen (s : BitSliceMut) : Nat := s.buf.length - s.off

/-- Models `BitSliceMut::remaining`: `self.data.len() * 8 - self.prefix`. -/
def remaining (s : BitSliceMut) : Nat := s.viewLen * 8 - s.pfx

/-- Models `BitSliceMut::advance`.  On the never-taken `get_mut(..)`
failure paths the view has already been replaced by the empty slice
(the source swaps in `&mut []` before the fallible re-slice), which the
offset model renders as `off := buf.length`. -/
def advance (s : BitSliceMut) (bits : Nat) : Except Unit Unit × BitSliceMut :=
  if bits > s.remaining then (.error (), s)
  else
    let p := s.pfx + bits % 8
    if 8 ≤ p then
      if s.viewLen < bits / 8 + 1 then
        (.error (), { s with pfx := p - 8, off := s.buf.length })
      else (.ok (), { s with off := s.off + (bits / 8 + 1), pfx := p - 8, len := s.len + bits })
    else
      if s.viewLen < bits / 8 then
        (.error (), { s with pfx := p, off := s.buf.length })
      else (.ok (), { s with off := s.off + bits / 8, pfx := p, len := s.len + bits })

/-- Models `BitSliceMut::write_bool`. -/
def write_bool (s : BitSliceMut) (item : Bool) : Except Unit BitSliceMut :=
  if s.viewLen = 0 then .error ()
  else
    let byte := s.buf.getD s.off 0
    let byte :=
      if item then byte ||| (128 >>> s.pfx)
      else byte &&& (255 ^^^ (128 >>> s.pfx))
    let s := { s with buf := s.buf.set s.off byte }
    match s.advance 1 with
    | (.ok _, s') => .ok s'
    | (.error _, _) => .error ()

/-- Models `BitSliceMut::write_byte` (the `BitBufMut` impl's override). -/
def write_byte (s : BitSliceMut) (item : Nat) : Except Unit BitSliceMut :=
  if s.viewLen = 0 then .error ()
  else if s.pfx = 0 then
    let s := { s with buf := s.buf.set s.off item }
    match s.advance 8 with
    | (.ok _, s') => .ok s'
    | (.error _, _) => .error ()
  else if s.viewLen = 1 then .error ()
  else
    let inv_prefix := 8 - s.pfx
    -- `self.data[0] |= item >> prefix; self.data[0] &= (item >> prefix) | (255 << inv_prefix);`
    let b0 := s.buf.getD s.off 0
    let b0 := (b0 ||| (item >>> s.pfx)) &&& ((item >>> s.pfx) ||| ((255 <<< inv_prefix) % 256))
    -- `self.data[1] |= item << inv_prefix; self.data[1] &= (item << inv_prefix) | (255 << prefix);`
    let b1 := s.buf.getD (s.off + 1) 0
    let b1 := (b1 ||| ((item <<< inv_prefix) % 256))
        &&& (((item <<< inv_prefix) % 256) ||| ((255 <<< s.pfx) % 256))
    let s := { s with buf := (s.buf.set s.off b0).set (s.off + 1) b1 }
    match s.advance 8 with
    | (.ok _, s') => .ok s'
    | (.error _, _) => .error ()

/-- Models the private tail helper `BitSliceMut::write(item: u8, bits)`.
`none` is an out-of-bounds index panic (the `prefix != 0` branch touches
`self.data[1]` unconditionally); `some (Except.error ())` is the `?` on
the final `advance`. -/
def writeTail (s : BitSliceMut) (item : Nat) (bits : Nat) : Option (Except Unit BitSliceMut) :=
  if s.pfx = 0 then
    if s.viewLen = 0 then none
    else
      let inv_bits := 8 - bits
      let litem := item &&& ((255 <<< inv_bits) % 256)
      let hitem := item ||| (255 >>> inv_bits)
      let b0 := s.buf.getD s.off 0
      let b0 := (b0 ||| litem) &&& hitem
      let s := { s with buf := s.buf.set s.off b0 }
      match s.advance bits with
      | (.ok _, s') => some (.ok s')
      | (.error _, _) => some (.error ())
  else
    if s.viewLen ≤ 1 then none
    else
      let inv_bits := 8 - bits
      let inv_prefix := 8 - s.pfx
      let litem := item &&& ((255 <<< inv_bits) % 256)
      let hitem := item ||| (255 >>> inv_bits)
      let b0 := s.buf.getD s.off 0
      let b0 := (b0 ||| (litem >>> s.pfx))
          &&& ((hitem >>> s.pfx) ||| ((255 <<< inv_prefix) % 256))
      let b1 := s.buf.getD (s.off + 1) 0
      let b1 := (b1 ||| ((litem <<< inv_prefix) % 256))
          &&& (((hitem <<< inv_prefix) % 256) ||| ((255 <<< s.pfx) % 256))
      let s := { s with buf := (s.buf.set s.off b0).set (s.off + 1) b1 }
      match s.advance bits with
      | (.ok _, s') => some (.ok s')
      | (.error _, _) => some (.error ())

/-- The whole-byte loop of `BitSliceMut::write`:
`for i in 0..bytes { self.write_byte(data[i]).expect(..); }`.
`none` is the index panic or the `.expect` panic. -/
def writeBytesLoop (data : List Nat) : BitSliceMut → Nat → Option BitSliceMut
  | s, 0 => some s
  | s, n + 1 =>
    match writeBytesLoop data s n with
    | none => none
    | some s' =>
      if data.length ≤ n then none
      else
        match s'.write_byte (data.getD n 0) with
        | .ok s'' => some s''
        | .error _ => none

/-- Models `BitSliceMut::write` (the `BitBufMut` impl).  Note the source
computes `bytes = bits / 8` from the *unclamped* bit count before
clamping `bits` to `remaining()`.  `some (Except.error ())` is
`Err(Overflow)`; `none` is a panic (an `.expect` firing or an
out-of-bounds index). -/
def write (s : BitSliceMut) (data : List Nat) (bits : Nat) :
    Option (Except Unit (BitSliceMut × Nat)) :=
  let bytes := bits / 8
  let re := s.remaining
  let bits := if bits > re then re else bits
  if bits = 0 then some (.ok (s, 0))
  else
    let len := data.length
    if len = 0 then some (.error ())
    else if len * 8 < bits then some (.error ())
    else
      match writeBytesLoop data s bytes with
      | none => none
      | some s1 =>
        let rem := bits % 8
        if rem ≠ 0 then
          if len < bytes + 1 then some (.error ())
          else
            match s1.writeTail (data.getD bytes 0) rem with
            | some (.ok s2) => some (.ok (s2, bits))
            | _ => none
        else some (.ok (s1, bits))

end BitSliceMut

/-!
The staged transfer wrappers (`Fill`, `CappedFill`, `Drain`, `CappedDrain`)
are generic over an external counterpart (`B: BitBuf` or `B: BitBufMut`).
The counterpart is modelled by the contract of those traits:

* an external bit *source* is its stream of bits, a `List Bool`
  (MSB-first); `remaining()` is its length, `read_bool` pops one bit and
  fails on the empty stream, `read_byte` pops eight bits;
* an external bit *sink* is a remaining capacity `room` plus the list of
  bits accepted so far; `write_bool` appends one bit and fails when
  `room = 0`, `write_byte` appends eight bits and fails when `room < 8`
  (the trait's default `write_byte` is `write_aligned_all(&[byte])`,
  which fails exactly when fewer than 8 bits of capacity remain).
-/

/-- The most-significant-first byte value of a list of bits, as produced
by a `BitBuf::read_byte` on a source whose next bits are `bs`. -/
def bitsToByte (bs : List Bool) : Nat :=
  bs.foldl (fun a b => 2 * a + (if b then 1 else 0)) 0

/-- The eight bits of a byte, most significant first, as accepted by a
`BitBufMut::write_byte` counterpart. -/
def byteBits (v : Nat) : List Bool :=
  [v.testBit 7, v.testBit 6, v.testBit 5, v.testBit 4,
   v.testBit 3, v.testBit 2, v.testBit 1, v.testBit 0]

/-- External bit sink: remaining capacity and the bits accepted so far. -/
structure Sink where
  room : Nat
  out : List Bool
deriving Repr, DecidableEq

namespace Sink

/-- `BitBufMut::write_bool` on an external sink. -/
def write_bool (k : Sink) (b : Bool) : Except Unit Sink :=
  if k.room = 0 then .error () else .ok ⟨k.room - 1, k.out ++ [b]⟩

/-- `BitBufMut::write_byte` on an external sink. -/
def write_byte (k : Sink) (v : Nat) : Except Unit Sink :=
  if k.room < 8 then .error () else .ok ⟨k.room - 8, k.out ++ byteBits v⟩

end Sink

/-- The loop of `Fill::fill_from` / `CappedFill::fill_from` (the two
source bodies are identical except that the uncapped variant binds
`cap := buf.len() * 8`).  `fuel` is a termination bound only: every
iteration either returns or increases `len`, so any `fuel > cap - len`
yields the loop's true result (`fillLoop_spec` below); callers pass
`cap - len + 1`.  `none` is a panicking `.unwrap()`. -/
def fillLoop (fuel cap : Nat) (len : Nat) (src : List Bool) (target : BitSliceMut) :
    Option (Nat × List Bool × BitSliceMut × Except Unit Unit) :=
  match fuel with
  | 0 => none
  | fuel + 1 =>
    if len < cap then
      if 8 ≤ src.length ∧ 8 ≤ cap - len then
        -- `let byte = buf.read_byte().unwrap(); target.write_byte(byte).unwrap(); self.len += 8;`
        match target.write_byte (bitsToByte (src.take 8)) with
        | .ok t' => fillLoop fuel cap (len + 8) (src.drop 8) t'
        | .error _ => none
      else
        match src with
        | [] => some (len, [], target, .error ())
        | b :: rest =>
          match target.write_bool b with
          | .ok t' => fillLoop fuel cap (len + 1) rest t'
          | .error _ => none
    else some (len, src, target, .ok ())

/-- Models `Fill<T> { len, buf }`. -/
structure Fill where
  len : Nat
  buf : List Nat
deriving Repr, DecidableEq

/-- Models `CappedFill<T> { len, cap, buf }`. -/
structure CappedFill where
  len : Nat
  cap : Nat
  buf : List Nat
deriving Repr, DecidableEq

namespace Fill

/-- Models `Fill::fill_from`. -/
def fill_from (st : Fill) (src : List Bool) :
    Option (Fill × List Bool × Except Unit Unit) :=
  let buf_len := st.buf.length * 8
  match (BitSliceMut.new st.buf).advance st.len with
  | (.error _, _) => none
  | (.ok _, target) =>
    match fillLoop (buf_len - st.len + 1) buf_len st.len src target with
    | none => none
    | some (len', src', t', res) => some (⟨len', t'.buf⟩, src', res)

end Fill

namespace CappedFill

/-- Models `CappedFill::fill_from`. -/
def fill_from (st : CappedFill) (src : List Bool) :
    Option (CappedFill × List Bool × Except Unit Unit) :=
  match (BitSliceMut.new st.buf).advance st.len with
  | (.error _, _) => none
  | (.ok _, target) =>
    match fillLoop (st.cap - st.len + 1) st.cap st.len src target with
    | none => none
    | some (len', src', t', res) => some (⟨len', st.cap, t'.buf⟩, src', res)

end CappedFill

/-- The loop of `Drain::drain_into` / `CappedDrain::drain_into` (again the
uncapped body binds `cap := buf.len() * 8`).  `fuel` is as in `fillLoop`. -/
def drainLoop (fuel cap : Nat) (len : Nat) (target : BitSlice) (sink : Sink) :
    Option (Nat × BitSlice × Sink × Except Unit Unit) :=
  match fuel with
  | 0 => none
  | fuel + 1 =>
    if len < cap then
      if 8 ≤ sink.room ∧ 8 ≤ cap - len then
        -- `buf.write_byte(target.read_byte().unwrap()).unwrap(); self.len += 8;`
        match target.read_byte with
        | some (.ok (v, t')) =>
          match sink.write_byte v with
          | .ok k' => drainLoop fuel cap (len + 8) t' k'
          | .error _ => none
        | _ => none
      else
        match target.read_bool with
        | some (.ok (b, t')) =>
          match sink.write_bool b with
          | .ok k' => drainLoop fuel cap (len + 1) t' k'
          | .error _ => some (len, t', sink, .error ())
        | _ => none
    else some (len, target, sink, .ok ())

/-- Models `Drain<T> { len, buf }`. -/
structure Drain where
  len : Nat
  buf : List Nat
deriving Repr, DecidableEq

/-- Models `CappedDrain<T> { cap, len, buf }`. -/
structure CappedDrain where
  cap : Nat
  len : Nat
  buf : List Nat
deriving Repr, DecidableEq

namespace Drain

/-- Models `Drain::drain_into`. -/
def drain_into (st : Drain) (sink : Sink) :
    Option (Drain × Sink × Except Unit Unit) :=
  let buf_len := st.buf.length * 8
  match (BitSlice.new st.buf).advance st.len with
  | (.error _, _) => none
  | (.ok _, target) =>
    match drainLoop (buf_len - st.len + 1) buf_len st.len target sink with
    | none => none
    | some (len', _, k', res) => some (⟨len', st.buf⟩, k', res)

end Drain

namespace CappedDrain

/-- Models `CappedDrain::drain_into`. -/
def drain_into (st : CappedDrain) (sink : Sink) :
    Option (CappedDrain × Sink × Except Unit Unit) :=
  match (BitSlice.new st.buf).advance st.len with
  | (.error _, _) => none
  | (.ok _, target) =>
    match drainLoop (st.cap - st.len + 1) st.cap st.len target sink with
    | none => none
    | some (len', _, k', res) => some (⟨st.cap, len', st.buf⟩, k', res)

end CappedDrain

/-- The round-trip pipeline of the spec's testable property: read `k` bits
from `B` after advancing `p`, write them at the same position into a
zeroed buffer of the same byte length, read them back; returns the two
destination buffers.  Any error or panic along the way is `none`. -/
def roundTrip (B : List Nat) (p k : Nat) : Option (List Nat × List Nat) :=
  let d0 := List.replicate ((k + 7) / 8) 0
  match (BitSlice.new B).advance p with
  | (.error _, _) => none
  | (.ok _, r) =>
    match r.read d0 k with
    | some (.ok (_, d1, _)) =>
      match (BitSliceMut.new (List.replicate B.length 0)).advance p with
      | (.error _, _) => none
      | (.ok _, w) =>
        match w.write d1 k with
        | some (.ok (w', _)) =>
          match (BitSlice.new w'.buf).advance p with
          | (.error _, _) => none
          | (.ok _, r2) =>
            match r2.read (List.replicate ((k + 7) / 8) 0) k with
            | some (.ok (_, d2, _)) => some (d1, d2)
            | _ => none
        | _ => none
    | _ => none

/-- Four successive `read_bool` calls on a fresh reader over `[0b10110000]`,
collecting the bits and the final `remaining()` (the spec's concrete
reader scenario). -/
def concreteReader : Option (List Bool × Nat) :=
  match (BitSlice.new [176]).read_bool with
  | some (.ok (b1, s1)) =>
    match s1.read_bool with
    | some (.ok (b2, s2)) =>
      match s2.read_bool with
      | some (.ok (b3, s3)) =>
        match s3.read_bool with
        | some (.ok (b4, s4)) => some ([b1, b2, b3, b4], s4.remaining)
        | _ => none
      | _ => none
    | _ => none
  | _ => none

/-!  Cursor-arithmetic lemmas shared by the claim proofs. -/

/-- `BitSlice::advance` succeeds whenever `bits ≤ remaining()`, and then
consumes exactly `bits` bits, keeps `prefix` below 8 and adds `bits` to
`len` (the `get(..)` fallbacks never fire). -/
theorem BitSlice.advance_reader_spec (s : BitSlice) (bits : Nat)
    (hp : s.pfx < 8) (hb : bits ≤ s.remaining) :
    ∃ t, s.advance bits = (.ok (), t) ∧ t.remaining = s.remaining - bits ∧
      t.pfx < 8 ∧ t.len = s.len + bits := by
  have hdm := Nat.div_add_mod bits 8
  have hm : bits % 8 < 8 := Nat.mod_lt _ (by omega)
  have hb' : bits ≤ s.data.length * 8 - s.pfx := hb
  unfold BitSlice.advance
  rw [if_neg (by omega)]
  by_cases hc : 8 ≤ s.pfx + bits % 8
  · rw [if_pos hc, if_neg (by omega)]
    refine ⟨_, rfl, ?_, ?_, rfl⟩
    · show (s.data.drop (bits / 8 + 1)).length * 8 - (s.pfx + bits % 8 - 8)
        = s.remaining - bits
      rw [List.length_drop]
      show _ = s.data.length * 8 - s.pfx - bits
      omega
    · show s.pfx + bits % 8 - 8 < 8
      omega
  · rw [if_neg hc, if_neg (by omega)]
    refine ⟨_, rfl, ?_, ?_, rfl⟩
    · show (s.data.drop (bits / 8)).length * 8 - (s.pfx + bits % 8) = s.remaining - bits
      rw [List.length_drop]
      show _ = s.data.length * 8 - s.pfx - bits
      omega
    · show s.pfx + bits % 8 < 8
      omega

/-- `BitSliceMut::advance` succeeds whenever `bits ≤ remaining()`, and
then consumes exactly `bits`, keeps `prefix` below 8, adds `bits` to
`len`, and does not touch the underlying buffer. -/
theorem BitSliceMut.advance_writer_spec (s : BitSliceMut) (bits : Nat)
    (hp : s.pfx < 8) (hb : bits ≤ s.remaining) :
    ∃ t, s.advance bits = (.ok (), t) ∧ t.remaining = s.remaining - bits ∧
      t.pfx < 8 ∧ t.len = s.len + bits ∧ t.buf = s.buf := by
  have hdm := Nat.div_add_mod bits 8
  have hm : bits % 8 < 8 := Nat.mod_lt _ (by omega)
  have hb' : bits ≤ (s.buf.length - s.off) * 8 - s.pfx := hb
  unfold BitSliceMut.advance
  rw [if_neg (by omega)]
  by_cases hc : 8 ≤ s.pfx + bits % 8
  · rw [if_pos hc, if_neg (show ¬ s.viewLen < bits / 8 + 1 by
      show ¬ s.buf.length - s.off < bits / 8 + 1
      omega)]
    refine ⟨_, rfl, ?_, ?_, rfl, rfl⟩
    · show (s.buf.length - (s.off + (bits / 8 + 1))) * 8 - (s.pfx + bits % 8 - 8)
        = s.remaining - bits
      show _ = (s.buf.length - s.off) * 8 - s.pfx - bits
      omega
    · show s.pfx + bits % 8 - 8 < 8
      omega
  · rw [if_neg hc, if_neg (show ¬ s.viewLen < bits / 8 by
      show ¬ s.buf.length - s.off < bits / 8
      omega)]
    refine ⟨_, rfl, ?_, ?_, rfl, rfl⟩
    · show (s.buf.length - (s.off + bits / 8)) * 8 - (s.pfx + bits % 8) = s.remaining - bits
      show _ = (s.buf.length - s.off) * 8 - s.pfx - bits
      omega
    · show s.pfx + bits % 8 < 8
      omega

/-- Replacing the buffer by one of equal length and then advancing, as
every writer mutation does, succeeds whenever `bits ≤ remaining()`. -/
theorem BitSliceMut.withBuf_advance_spec (s : BitSliceMut) (nb : List Nat) (bits : Nat)
    (hp : s.pfx < 8) (hb : bits ≤ s.remaining) (hlen : nb.length = s.buf.length) :
    ∃ t, (match ({ s with buf := nb }).advance bits with
          | (.ok _, s') => (Except.ok s' : Except Unit BitSliceMut)
          | (.error _, _) => .error ()) = .ok t ∧
      t.remaining = s.remaining - bits ∧ t.pfx < 8 ∧ t.len = s.len + bits ∧ t.buf = nb := by
  have hrem : ({ s with buf := nb } : BitSliceMut).remaining = s.remaining := by
    show (nb.length - s.off) * 8 - s.pfx = (s.buf.length - s.off) * 8 - s.pfx
    rw [hlen]
  obtain ⟨t, ht, h2, h3, h4, h5⟩ :=
    BitSliceMut.advance_writer_spec { s with buf := nb } bits hp (by rw [hrem]; exact hb)
  rw [ht]
  exact ⟨t, rfl, by rw [h2, hrem], h3, h4, h5⟩

/-- `BitSliceMut::write_bool` succeeds whenever `remaining() ≥ 1`, and
then consumes 1 bit and leaves the buffer length unchanged. -/
theorem BitSliceMut.write_bool_spec (s : BitSliceMut) (b : Bool)
    (hp : s.pfx < 8) (h1 : 1 ≤ s.remaining) :
    ∃ t, s.write_bool b = .ok t ∧ t.remaining = s.remaining - 1 ∧ t.pfx < 8 ∧
      t.len = s.len + 1 ∧ t.buf.length = s.buf.length := by
  have h1' : 1 ≤ (s.buf.length - s.off) * 8 - s.pfx := h1
  have hv : ¬ s.viewLen = 0 := by
    show ¬ s.buf.length - s.off = 0
    omega
  obtain ⟨t, ht, h2, h3, h4, h5⟩ :=
    s.withBuf_advance_spec
      (s.buf.set s.off
        (if b then s.buf.getD s.off 0 ||| (128 >>> s.pfx)
         else s.buf.getD s.off 0 &&& (255 ^^^ (128 >>> s.pfx))))
      1 hp h1 (List.length_set ..)
  refine ⟨t, ?_, h2, h3, h4, by rw [h5, List.length_set]⟩
  unfold BitSliceMut.write_bool
  rw [if_neg hv]
  exact ht

/-- `BitSliceMut::write_byte` succeeds whenever `remaining() ≥ 8`, and
then consumes 8 bits and leaves the buffer length unchanged. -/
theorem BitSliceMut.write_byte_spec (s : BitSliceMut) (v : Nat)
    (hp : s.pfx < 8) (h8 : 8 ≤ s.remaining) :
    ∃ t, s.write_byte v = .ok t ∧ t.remaining = s.remaining - 8 ∧ t.pfx < 8 ∧
      t.len = s.len + 8 ∧ t.buf.length = s.buf.length := by
  have h8' : 8 ≤ (s.buf.length - s.off) * 8 - s.pfx := h8
  have hv : ¬ s.viewLen = 0 := by
    show ¬ s.buf.length - s.off = 0
    omega
  by_cases hpz : s.pfx = 0
  · obtain ⟨t, ht, h2, h3, h4, h5⟩ :=
      s.withBuf_advance_spec (s.buf.set s.off v) 8 hp h8 (List.length_set ..)
    refine ⟨t, ?_, h2, h3, h4, by rw [h5, List.length_set]⟩
    unfold BitSliceMut.write_byte
    rw [if_neg hv, if_pos hpz]
    exact ht
  · have hv1 : ¬ s.viewLen = 1 := by
      show ¬ s.buf.length - s.off = 1
      intro hone
      omega
    obtain ⟨t, ht, h2, h3, h4, h5⟩ :=
      s.withBuf_advance_spec
        ((s.buf.set s.off
            ((s.buf.getD s.off 0 ||| (v >>> s.pfx)) &&&
              ((v >>> s.pfx) ||| ((255 <<< (8 - s.pfx)) % 256)))).set (s.off + 1)
          ((s.buf.getD (s.off + 1) 0 ||| ((v <<< (8 - s.pfx)) % 256)) &&&
            (((v <<< (8 - s.pfx)) % 256) ||| ((255 <<< s.pfx) % 256))))
        8 hp h8 (by rw [List.length_set, List.length_set])
    refine ⟨t, ?_, h2, h3, h4, by rw [h5, List.length_set, List.length_set]⟩
    unfold BitSliceMut.write_byte
    rw [if_neg hv, if_neg hpz, if_neg hv1]
    exact ht

/-- `BitSlice::read_bool` succeeds whenever `remaining() ≥ 1`, and then
consumes exactly 1 bit. -/
theorem BitSlice.read_bool_spec (s : BitSlice) (hp : s.pfx < 8) (h1 : 1 ≤ s.remaining) :
    ∃ b t, s.read_bool = some (.ok (b, t)) ∧ t.remaining = s.remaining - 1 ∧ t.pfx < 8 := by
  have h1' : 1 ≤ s.data.length * 8 - s.pfx := h1
  obtain ⟨v, hda⟩ : ∃ v, s.data_at_offset 0 1 = some (.ok v) := by
    simp only [BitSlice.data_at_offset]
    by_cases hpz : s.pfx + 0 = 0
    · rw [if_pos hpz, if_neg (show ¬ s.remaining = 0 by omega),
        if_neg (show ¬ s.data.length = 0 by omega)]
      exact ⟨_, rfl⟩
    · rw [if_neg hpz, if_neg (show ¬ s.remaining < 1 by omega),
        if_neg (show ¬ (s.pfx + 0) % 8 = 0 by omega),
        if_pos (show 1 + (s.pfx + 0) % 8 ≤ 8 by omega),
        if_neg (show ¬ s.data.length ≤ (s.pfx + 0) / 8 by omega)]
      exact ⟨_, rfl⟩
  obtain ⟨t, ht, h2, h3, _⟩ := s.advance_reader_spec 1 hp h1
  unfold BitSlice.read_bool
  rw [hda, ht]
  exact ⟨_, t, rfl, h2, h3⟩

/-- `BitSlice::read_byte` succeeds whenever `remaining() ≥ 8`, and then
consumes exactly 8 bits. -/
theorem BitSlice.read_byte_spec (s : BitSlice) (hp : s.pfx < 8) (h8 : 8 ≤ s.remaining) :
    ∃ v t, s.read_byte = some (.ok (v, t)) ∧ t.remaining = s.remaining - 8 ∧ t.pfx < 8 := by
  have h8' : 8 ≤ s.data.length * 8 - s.pfx := h8
  obtain ⟨v, hda⟩ : ∃ v, s.byte_at_offset 0 = some (.ok v) := by
    simp only [BitSlice.byte_at_offset, BitSlice.data_at_offset]
    by_cases hpz : s.pfx + 0 = 0
    · rw [if_pos hpz, if_neg (show ¬ s.remaining = 0 by omega),
        if_neg (show ¬ s.data.length = 0 by omega)]
      exact ⟨_, rfl⟩
    · rw [if_neg hpz, if_neg (show ¬ s.remaining < 8 by omega),
        if_neg (show ¬ (s.pfx + 0) % 8 = 0 by omega),
        if_neg (show ¬ 8 + (s.pfx + 0) % 8 ≤ 8 by omega),
        if_neg (show ¬ s.data.length ≤ (s.pfx + 0) / 8 + 1 by omega)]
      exact ⟨_, rfl⟩
  obtain ⟨t, ht, h2, h3, _⟩ := s.advance_reader_spec 8 hp h8
  unfold BitSlice.read_byte
  rw [hda, ht]
  exact ⟨v, t, rfl, h2, h3⟩

/-- Characterization of the fill loop: with a well-formed target whose
remaining capacity covers `cap - len`, the loop transfers exactly
`min src.length (cap - len)` bits, succeeds iff `len` reaches `cap`
before the source runs dry, and never panics.  Any `fuel > cap - len`
is enough, so the result is fuel-independent. -/
theorem fillLoop_spec (fuel : Nat) :
    ∀ (cap len : Nat) (src : List Bool) (t : BitSliceMut),
      t.pfx < 8 → cap - len ≤ t.remaining → cap - len < fuel →
      ∃ t', fillLoop fuel cap len src t
          = some (len + min src.length (cap - len),
                  src.drop (min src.length (cap - len)), t',
                  if cap - len ≤ src.length then Except.ok () else Except.error ()) ∧
        t'.buf.length = t.buf.length := by
  induction fuel with
  | zero => intro cap len src t _ _ hf; omega
  | succ fuel ih =>
    intro cap len src t hp hrem hf
    by_cases hlc : len < cap
    · simp only [fillLoop]
      rw [if_pos hlc]
      by_cases hg : 8 ≤ src.length ∧ 8 ≤ cap - len
      · rw [if_pos hg]
        obtain ⟨t1, hw, h2, h3, h4, h5⟩ :=
          t.write_byte_spec (bitsToByte (src.take 8)) hp (by omega)
        simp only [hw]
        obtain ⟨t', hrec, hlen'⟩ :=
          ih cap (len + 8) (src.drop 8) t1 h3 (by rw [h2]; omega) (by omega)
        rw [hrec]
        refine ⟨t', ?_, by rw [hlen', h5]⟩
        have hld : (src.drop 8).length = src.length - 8 := List.length_drop ..
        have hmin : len + 8 + min (src.drop 8).length (cap - (len + 8))
            = len + min src.length (cap - len) := by
          rw [hld]; omega
        have hdrop : (src.drop 8).drop (min (src.drop 8).length (cap - (len + 8)))
            = src.drop (min src.length (cap - len)) := by
          rw [List.drop_drop, hld]
          congr 1
          omega
        have hif : (if cap - (len + 8) ≤ (src.drop 8).length then (Except.ok () : Except Unit Unit)
              else Except.error ())
            = if cap - len ≤ src.length then Except.ok () else Except.error () := by
          rw [hld]
          by_cases hcs : cap - len ≤ src.length
          · rw [if_pos (by omega), if_pos hcs]
          · rw [if_neg (by omega), if_neg hcs]
        rw [hmin, hdrop, hif]
      · rw [if_neg hg]
        cases src with
        | nil =>
          refine ⟨t, ?_, rfl⟩
          simp only [List.length_nil, Nat.zero_min, Nat.add_zero, List.drop_nil, List.drop_zero]
          rw [if_neg (by omega : ¬ cap - len ≤ 0)]
        | cons b rest =>
          obtain ⟨t1, hw, h2, h3, h4, h5⟩ := t.write_bool_spec b hp (by omega)
          simp only [hw]
          obtain ⟨t', hrec, hlen'⟩ :=
            ih cap (len + 1) rest t1 h3 (by rw [h2]; omega) (by omega)
          rw [hrec]
          refine ⟨t', ?_, by rw [hlen', h5]⟩
          have hmin : len + 1 + min rest.length (cap - (len + 1))
              = len + min (b :: rest).length (cap - len) := by
            simp only [List.length_cons]
            omega
          have hdrop : rest.drop (min rest.length (cap - (len + 1)))
              = (b :: rest).drop (min (b :: rest).length (cap - len)) := by
            simp only [List.length_cons]
            have hm : min (rest.length + 1) (cap - len) = min rest.length (cap - (len + 1)) + 1 := by
              omega
            rw [hm, List.drop_succ_cons]
          have hif : (if cap - (len + 1) ≤ rest.length then (Except.ok () : Except Unit Unit)
                else Except.error ())
              = if cap - len ≤ (b :: rest).length then Except.ok () else Except.error () := by
            simp only [List.length_cons]
            by_cases hcs : cap - len ≤ rest.length + 1
            · rw [if_pos (by omega), if_pos hcs]
            · rw [if_neg (by omega), if_neg hcs]
          rw [hmin, hdrop, hif]
    · refine ⟨t, ?_, rfl⟩
      simp only [fillLoop]
      rw [if_neg hlc]
      have h0 : cap - len = 0 := by omega
      rw [h0]
      simp only [Nat.min_zero, Nat.add_zero, List.drop_zero]
      rw [if_pos (Nat.zero_le _)]

/-- Characterization of the drain loop: with a well-formed source cursor
whose remaining bits cover `cap - len`, the loop transfers exactly
`min sink.room (cap - len)` bits, succeeds iff `len` reaches `cap`
before the sink fills up, and never panics. -/
theorem drainLoop_spec (fuel : Nat) :
    ∀ (cap len : Nat) (k : Sink) (t : BitSlice),
      t.pfx < 8 → cap - len ≤ t.remaining → cap - len < fuel →
      ∃ t' k', drainLoop fuel cap len t k
          = some (len + min k.room (cap - len), t', k',
                  if cap - len ≤ k.room then Except.ok () else Except.error ()) ∧
        k'.room = k.room - min k.room (cap - len) := by
  induction fuel with
  | zero => intro cap len k t _ _ hf; omega
  | succ fuel ih =>
    intro cap len k t hp hrem hf
    by_cases hlc : len < cap
    · simp only [drainLoop]
      rw [if_pos hlc]
      by_cases hg : 8 ≤ k.room ∧ 8 ≤ cap - len
      · rw [if_pos hg]
        obtain ⟨v, t1, hr, h2, h3⟩ := t.read_byte_spec hp (by omega)
        have hwb : k.write_byte v = .ok ⟨k.room - 8, k.out ++ byteBits v⟩ := by
          unfold Sink.write_byte
          rw [if_neg (by omega)]
        simp only [hr, hwb]
        obtain ⟨t', k', hrec, hroom⟩ :=
          ih cap (len + 8) ⟨k.room - 8, k.out ++ byteBits v⟩ t1 h3 (by rw [h2]; omega) (by omega)
        simp only [hrec]
        refine ⟨t', k', ?_, by simp only [] at hroom ⊢; omega⟩
        have hmin : len + 8 + min (k.room - 8) (cap - (len + 8))
            = len + min k.room (cap - len) := by omega
        have hif : (if cap - (len + 8) ≤ k.room - 8 then (Except.ok () : Except Unit Unit)
              else Except.error ())
            = if cap - len ≤ k.room then Except.ok () else Except.error () := by
          by_cases hcs : cap - len ≤ k.room
          · rw [if_pos (by omega), if_pos hcs]
          · rw [if_neg (by omega), if_neg hcs]
        simp only [hmin, hif]
      · rw [if_neg hg]
        obtain ⟨b, t1, hr, h2, h3⟩ := t.read_bool_spec hp (by omega)
        simp only [hr]
        by_cases hz : k.room = 0
        · have hwb : k.write_bool b = .error () := by
            unfold Sink.write_bool
            rw [if_pos hz]
          simp only [hwb]
          refine ⟨t1, k, ?_, by omega⟩
          rw [hz]
          simp only [Nat.zero_min, Nat.add_zero]
          rw [if_neg (by omega : ¬ cap - len ≤ 0)]
        · have hwb : k.write_bool b = .ok ⟨k.room - 1, k.out ++ [b]⟩ := by
            unfold Sink.write_bool
            rw [if_neg hz]
          simp only [hwb]
          obtain ⟨t', k', hrec, hroom⟩ :=
            ih cap (len + 1) ⟨k.room - 1, k.out ++ [b]⟩ t1 h3 (by rw [h2]; omega) (by omega)
          simp only [hrec]
          refine ⟨t', k', ?_, by simp only [] at hroom ⊢; omega⟩
          have hmin : len + 1 + min (k.room - 1) (cap - (len + 1))
              = len + min k.room (cap - len) := by omega
          have hif : (if cap - (len + 1) ≤ k.room - 1 then (Except.ok () : Except Unit Unit)
                else Except.error ())
              = if cap - len ≤ k.room then Except.ok () else Except.error () := by
            by_cases hcs : cap - len ≤ k.room
            · rw [if_pos (by omega), if_pos hcs]
            · rw [if_neg (by omega), if_neg hcs]
          simp only [hmin, hif]
    · refine ⟨t, k, ?_, by omega⟩
      simp only [drainLoop]
      rw [if_neg hlc]
      have h0 : cap - len = 0 := by omega
      rw [h0]
      simp only [Nat.min_zero, Nat.add_zero]
      rw [if_pos (Nat.zero_le _)]

/-!  Claim theorems for the claims settled on concrete inputs. -/

/-- C1: the claimed non-disturbance fails.  Writing the 3-bit field
`0b000` at prefix 0 over the byte `0b11111111` yields `0b00000111`: the
tail-merge helper's mask `item | (255 >> inv_bits)` protects only the low
`bits` bits instead of the low `8 - bits` bits, so bit positions 3 and 4
— outside the written span 0..3 — are cleared (testBit index 4 is MSB
position 3: it was set in 255 and is clear in 7). -/
theorem write_tail_clears_bits_outside_span :
    BitSliceMut.write (BitSliceMut.new [255]) [0] 3
      = some (.ok (⟨[7], 0, 3, 3⟩, 3)) ∧
    (7 : Nat).testBit 4 ≠ (255 : Nat).testBit 4 :=
  ⟨rfl, by decide⟩

/-- C2: the claimed round trip does not hold for all `k ≤ len(B)*8 - p`:
at `B = [0b10101010]`, `p = 1`, `k = 7` the write of the 7-bit tail at
prefix 1 unconditionally indexes `data[1]` while the view holds a single
byte, so the pipeline panics (out-of-bounds index) instead of
reproducing the 7 bits. -/
theorem roundTrip_last_byte_write_panics : roundTrip [170] 1 7 = none := rfl

/-- C3: resumability fails.  A `Fill` over `[0x00, 0xFF]` with 4 bits
already transferred, given 8 zero bits: as two 4-bit sources every bit
goes through `write_bool` and the buffer ends `[0x00, 0x0F]`; as one
8-bit source the loop takes the `write_byte` fast path, whose mask
`(item << inv_prefix) | (255 << prefix)` clears byte 1's bits outside
the written span, and the buffer ends `[0x00, 0xF0]`.  Final `len` is 12
either way but the contents differ. -/
theorem fill_split_and_whole_differ :
    Fill.fill_from ⟨4, [0, 255]⟩ [false, false, false, false]
      = some (⟨8, [0, 255]⟩, [], .error ()) ∧
    Fill.fill_from ⟨8, [0, 255]⟩ [false, false, false, false]
      = some (⟨12, [0, 15]⟩, [], .error ()) ∧
    Fill.fill_from ⟨4, [0, 255]⟩ (List.replicate 8 false)
      = some (⟨12, [0, 240]⟩, [], .error ()) ∧
    ([0, 15] : List Nat) ≠ [0, 240] :=
  ⟨rfl, rfl, rfl, by decide⟩

/-- C4: `write` with `bits > remaining()` can panic instead of clamping:
over a 1-byte buffer, `write(&[0, 0], 16)` runs the whole-byte loop
`bits / 8 = 2` times (computed before the clamp to `remaining() = 8`),
and the second `write_byte` hits an empty view, firing the
`.expect("overflowed restricted buffer")`. -/
theorem write_overrun_panics :
    BitSliceMut.write (BitSliceMut.new [0]) [0, 0] 16 = none := rfl

/-- C5 counterexample: reading 1 bit of `[0x00]` into `dst = [0xFF]`
leaves `dst = [0x00]`: the claimed preservation of the lower 7 bits of
the destination's tail byte fails (`0 &&& 127 ≠ 255 &&& 127`), because
`dst[bytes] |= byte; dst[bytes] &= byte;` stores `byte` outright. -/
theorem read_preserves_tail_low_bits_cex :
    BitSlice.read (BitSlice.new [0]) [255] 1
      = some (.ok (⟨[0], 1, 1⟩, [0], 1)) ∧
    (0 : Nat) &&& 127 ≠ (255 : Nat) &&& 127 :=
  ⟨rfl, by decide⟩

/-- C8: with `remaining() = 7 ≥ bits = 7` and a source slice of exactly
`ceil(7/8) = 1` byte, `write(&[0xAB], 7)` on a cursor at prefix 1 over a
1-byte buffer must succeed by the claim, but the tail-merge helper
unconditionally indexes `data[1]` and panics out of bounds. -/
theorem write_tail_in_last_byte_panics :
    BitSliceMut.write ((BitSliceMut.new [0]).advance 1).2 [171] 7 = none := rfl

/-- C9 counterexample: the only way the public API positions a writer at
prefix 4 is `advance(4)`, which already adds 4 to `len`; after
`write_byte(0xFF)` the cursor's `len` is 12, not the claimed 8 (the
buffer bytes are `0b00001111` and `0b11110000` as claimed). -/
theorem concrete_writer_len_cex :
    ((BitSliceMut.new [0, 0]).advance 4).2.write_byte 255
      = .ok ⟨[15, 240], 1, 4, 12⟩ ∧
    (12 : Nat) ≠ 8 :=
  ⟨rfl, by decide⟩

/-- C9 amended: on `[0b10110000]` four `read_bool` calls yield
`true, false, true, true` with `remaining() = 4`; the writer positioned
at prefix 4 by `advance(4)` over a zeroed 2-byte buffer, after
`write_byte(0xFF)`, has bytes `0b00001111`, `0b11110000` and
`len() = 12` (the positioning `advance(4)` already counted 4 bits). -/
theorem concrete_scenario_amended :
    concreteReader = some ([true, false, true, true], 4) ∧
    ((BitSliceMut.new [0, 0]).advance 4).2.write_byte 255
      = .ok ⟨[15, 240], 1, 4, 12⟩ :=
  ⟨rfl, rfl⟩

/-- C10: `read_aligned` can panic: over a 1-byte buffer with a 3-byte
destination, the clamp stores the *bit* count 8 into the byte-length
variable, the `len % 8 = 0` branch is taken, and the copy loop runs over
all of `dst`, calling `byte_at_offset(8)` which indexes `data[1]` out of
bounds. -/
theorem read_aligned_oob_panics :
    BitSlice.read_aligned (BitSlice.new [0]) [0, 0, 0] = none := rfl

/-- C6: for both cursor types, `advance(remaining())` succeeds and leaves
`remaining() = 0`, while `advance(n)` with `n > remaining()` fails with
`Insufficient` and returns the cursor completely unchanged (the check
happens before any mutation). -/
theorem advance_boundary (s : BitSlice) (t : BitSliceMut) (m n : Nat)
    (hs : s.pfx < 8) (ht : t.pfx < 8)
    (hm : m > s.remaining) (hn : n > t.remaining) :
    ((s.advance s.remaining).1 = .ok () ∧ (s.advance s.remaining).2.remaining = 0) ∧
    s.advance m = (.error (), s) ∧
    ((t.advance t.remaining).1 = .ok () ∧ (t.advance t.remaining).2.remaining = 0) ∧
    t.advance n = (.error (), t) := by
  obtain ⟨u, hu, h2, _, _⟩ := s.advance_reader_spec s.remaining hs le_rfl
  obtain ⟨w, hw, h2', _, _, _⟩ := t.advance_writer_spec t.remaining ht le_rfl
  refine ⟨⟨?_, ?_⟩, ?_, ⟨?_, ?_⟩, ?_⟩
  · rw [hu]
  · rw [hu]
    show u.remaining = 0
    omega
  · unfold BitSlice.advance
    rw [if_pos hm]
  · rw [hw]
  · rw [hw]
    show w.remaining = 0
    omega
  · unfold BitSliceMut.advance
    rw [if_pos hn]

/-- Witness for C6 at a concrete one-byte cursor pair. -/
theorem advance_boundary_witness :
    (((BitSlice.new [7]).advance (BitSlice.new [7]).remaining).1 = .ok () ∧
      ((BitSlice.new [7]).advance (BitSlice.new [7]).remaining).2.remaining = 0) ∧
    (BitSlice.new [7]).advance 9 = (.error (), BitSlice.new [7]) ∧
    (((BitSliceMut.new [7]).advance (BitSliceMut.new [7]).remaining).1 = .ok () ∧
      ((BitSliceMut.new [7]).advance (BitSliceMut.new [7]).remaining).2.remaining = 0) ∧
    (BitSliceMut.new [7]).advance 9 = (.error (), BitSliceMut.new [7]) :=
  advance_boundary (BitSlice.new [7]) (BitSliceMut.new [7]) 9 9
    (by decide) (by decide) (by decide) (by decide)

/-- C7: for each of the four staged-transfer wrappers, a transfer call
returns `Ok(())` exactly when `len` reaches the capacity (`buf.len()*8`,
or `cap` for the capped variants), returns `Err(Insufficient)` exactly
when the external counterpart runs out first — in which case the
counterpart is fully exhausted — and always leaves `len` equal to the
previous `len` plus the number of bits actually moved
(`min` of the counterpart's bits and the remaining capacity). -/
theorem transfer_stop_conditions
    (f : Fill) (cf : CappedFill) (d : Drain) (cd : CappedDrain)
    (sf scf : List Bool) (kd kcd : Sink)
    (hf : f.len ≤ f.buf.length * 8)
    (hcf1 : cf.len ≤ cf.cap) (hcf2 : cf.cap ≤ cf.buf.length * 8)
    (hd : d.len ≤ d.buf.length * 8)
    (hcd1 : cd.len ≤ cd.cap) (hcd2 : cd.cap ≤ cd.buf.length * 8) :
    (∃ f' sf' res, f.fill_from sf = some (f', sf', res) ∧
      f'.len = f.len + min sf.length (f.buf.length * 8 - f.len) ∧
      (res = .ok () ↔ f'.len = f.buf.length * 8) ∧
      (res = .error () → sf' = [] ∧ f'.len = f.len + sf.length)) ∧
    (∃ cf' scf' res, cf.fill_from scf = some (cf', scf', res) ∧
      cf'.len = cf.len + min scf.length (cf.cap - cf.len) ∧
      (res = .ok () ↔ cf'.len = cf.cap) ∧
      (res = .error () → scf' = [] ∧ cf'.len = cf.len + scf.length)) ∧
    (∃ d' kd' res, d.drain_into kd = some (d', kd', res) ∧
      d'.len = d.len + min kd.room (d.buf.length * 8 - d.len) ∧
      (res = .ok () ↔ d'.len = d.buf.length * 8) ∧
      (res = .error () → kd'.room = 0 ∧ d'.len = d.len + kd.room)) ∧
    (∃ cd' kcd' res, cd.drain_into kcd = some (cd', kcd', res) ∧
      cd'.len = cd.len + min kcd.room (cd.cap - cd.len) ∧
      (res = .ok () ↔ cd'.len = cd.cap) ∧
      (res = .error () → kcd'.room = 0 ∧ cd'.len = cd.len + kcd.room)) := by
  refine ⟨?_, ?_, ?_, ?_⟩
  · -- Fill
    have hnew : (BitSliceMut.new f.buf).remaining = f.buf.length * 8 := by
      show (f.buf.length - 0) * 8 - 0 = f.buf.length * 8
      omega
    obtain ⟨w0, hw0, hrem0, hpfx0, _, _⟩ :=
      (BitSliceMut.new f.buf).advance_writer_spec f.len (by show (0 : Nat) < 8; omega)
        (by rw [hnew]; exact hf)
    rw [hnew] at hrem0
    obtain ⟨t', hloop, _⟩ :=
      fillLoop_spec (f.buf.length * 8 - f.len + 1) (f.buf.length * 8) f.len sf w0 hpfx0
        (by omega) (by omega)
    refine ⟨⟨f.len + min sf.length (f.buf.length * 8 - f.len), t'.buf⟩,
      sf.drop (min sf.length (f.buf.length * 8 - f.len)),
      if f.buf.length * 8 - f.len ≤ sf.length then Except.ok () else Except.error (),
      ?_, rfl, ?_, ?_⟩
    · simp only [Fill.fill_from]
      simp only [hw0]
      simp only [hloop]
    · by_cases hcs : f.buf.length * 8 - f.len ≤ sf.length
      · rw [if_pos hcs]
        exact iff_of_true rfl
          (by show f.len + min sf.length (f.buf.length * 8 - f.len) = f.buf.length * 8; omega)
      · rw [if_neg hcs]
        exact iff_of_false (by simp)
          (by show ¬ f.len + min sf.length (f.buf.length * 8 - f.len) = f.buf.length * 8; omega)
    · by_cases hcs : f.buf.length * 8 - f.len ≤ sf.length
      · rw [if_pos hcs]
        intro h
        exact absurd h (by simp)
      · rw [if_neg hcs]
        intro _
        constructor
        · have hm : min sf.length (f.buf.length * 8 - f.len) = sf.length := by omega
          rw [hm, List.drop_length]
        · show f.len + min sf.length (f.buf.length * 8 - f.len) = f.len + sf.length
          omega
  · -- CappedFill
    have hnew : (BitSliceMut.new cf.buf).remaining = cf.buf.length * 8 := by
      show (cf.buf.length - 0) * 8 - 0 = cf.buf.length * 8
      omega
    obtain ⟨w0, hw0, hrem0, hpfx0, _, _⟩ :=
      (BitSliceMut.new cf.buf).advance_writer_spec cf.len (by show (0 : Nat) < 8; omega)
        (by rw [hnew]; omega)
    rw [hnew] at hrem0
    obtain ⟨t', hloop, _⟩ :=
      fillLoop_spec (cf.cap - cf.len + 1) cf.cap cf.len scf w0 hpfx0
        (by omega) (by omega)
    refine ⟨⟨cf.len + min scf.length (cf.cap - cf.len), cf.cap, t'.buf⟩,
      scf.drop (min scf.length (cf.cap - cf.len)),
      if cf.cap - cf.len ≤ scf.length then Except.ok () else Except.error (),
      ?_, rfl, ?_, ?_⟩
    · simp only [CappedFill.fill_from]
      simp only [hw0]
      simp only [hloop]
    · by_cases hcs : cf.cap - cf.len ≤ scf.length
      · rw [if_pos hcs]
        exact iff_of_true rfl
          (by show cf.len + min scf.length (cf.cap - cf.len) = cf.cap; omega)
      · rw [if_neg hcs]
        exact iff_of_false (by simp)
          (by show ¬ cf.len + min scf.length (cf.cap - cf.len) = cf.cap; omega)
    · by_cases hcs : cf.cap - cf.len ≤ scf.length
      · rw [if_pos hcs]
        intro h
        exact absurd h (by simp)
      · rw [if_neg hcs]
        intro _
        constructor
        · have hm : min scf.length (cf.cap - cf.len) = scf.length := by omega
          rw [hm, List.drop_length]
        · show cf.len + min scf.length (cf.cap - cf.len) = cf.len + scf.length
          omega
  · -- Drain
    have hnew : (BitSlice.new d.buf).remaining = d.buf.length * 8 := by
      show d.buf.length * 8 - 0 = d.buf.length * 8
      omega
    obtain ⟨w0, hw0, hrem0, hpfx0, _⟩ :=
      (BitSlice.new d.buf).advance_reader_spec d.len (by show (0 : Nat) < 8; omega)
        (by rw [hnew]; exact hd)
    rw [hnew] at hrem0
    obtain ⟨t', k', hloop, hroom⟩ :=
      drainLoop_spec (d.buf.length * 8 - d.len + 1) (d.buf.length * 8) d.len kd w0 hpfx0
        (by omega) (by omega)
    refine ⟨⟨d.len + min kd.room (d.buf.length * 8 - d.len), d.buf⟩, k',
      if d.buf.length * 8 - d.len ≤ kd.room then Except.ok () else Except.error (),
      ?_, rfl, ?_, ?_⟩
    · simp only [Drain.drain_into]
      simp only [hw0]
      simp only [hloop]
    · by_cases hcs : d.buf.length * 8 - d.len ≤ kd.room
      · rw [if_pos hcs]
        exact iff_of_true rfl
          (by show d.len + min kd.room (d.buf.length * 8 - d.len) = d.buf.length * 8; omega)
      · rw [if_neg hcs]
        exact iff_of_false (by simp)
          (by show ¬ d.len + min kd.room (d.buf.length * 8 - d.len) = d.buf.length * 8; omega)
    · by_cases hcs : d.buf.length * 8 - d.len ≤ kd.room
      · rw [if_pos hcs]
        intro h
        exact absurd h (by simp)
      · rw [if_neg hcs]
        intro _
        refine ⟨by omega, ?_⟩
        show d.len + min kd.room (d.buf.length * 8 - d.len) = d.len + kd.room
        omega
  · -- CappedDrain
    have hnew : (BitSlice.new cd.buf).remaining = cd.buf.length * 8 := by
      show cd.buf.length * 8 - 0 = cd.buf.length * 8
      omega
    obtain ⟨w0, hw0, hrem0, hpfx0, _⟩ :=
      (BitSlice.new cd.buf).advance_reader_spec cd.len (by show (0 : Nat) < 8; omega)
        (by rw [hnew]; omega)
    rw [hnew] at hrem0
    obtain ⟨t', k', hloop, hroom⟩ :=
      drainLoop_spec (cd.cap - cd.len + 1) cd.cap cd.len kcd w0 hpfx0
        (by omega) (by omega)
    refine ⟨⟨cd.cap, cd.len + min kcd.room (cd.cap - cd.len), cd.buf⟩, k',
      if cd.cap - cd.len ≤ kcd.room then Except.ok () else Except.error (),
      ?_, rfl, ?_, ?_⟩
    · simp only [CappedDrain.drain_into]
      simp only [hw0]
      simp only [hloop]
    · by_cases hcs : cd.cap - cd.len ≤ kcd.room
      · rw [if_pos hcs]
        exact iff_of_true rfl
          (by show cd.len + min kcd.room (cd.cap - cd.len) = cd.cap; omega)
      · rw [if_neg hcs]
        exact iff_of_false (by simp)
          (by show ¬ cd.len + min kcd.room (cd.cap - cd.len) = cd.cap; omega)
    · by_cases hcs : cd.cap - cd.len ≤ kcd.room
      · rw [if_pos hcs]
        intro h
        exact absurd h (by simp)
      · rw [if_neg hcs]
        intro _
        refine ⟨by omega, ?_⟩
        show cd.len + min kcd.room (cd.cap - cd.len) = cd.len + kcd.room
        omega

/-- Witness for C7 at concrete wrappers: one-byte buffers, a 1-bit
source, and sinks with room 2 and 5. -/
theorem transfer_stop_conditions_witness :
    (∃ f' sf' res, Fill.fill_from ⟨0, [5]⟩ [true] = some (f', sf', res) ∧
      f'.len = 0 + min 1 8 ∧
      (res = .ok () ↔ f'.len = 8) ∧
      (res = .error () → sf' = [] ∧ f'.len = 0 + 1)) ∧
    (∃ cf' scf' res, CappedFill.fill_from ⟨0, 4, [0]⟩ [false] = some (cf', scf', res) ∧
      cf'.len = 0 + min 1 4 ∧
      (res = .ok () ↔ cf'.len = 4) ∧
      (res = .error () → scf' = [] ∧ cf'.len = 0 + 1)) ∧
    (∃ d' kd' res, Drain.drain_into ⟨0, [3]⟩ ⟨2, []⟩ = some (d', kd', res) ∧
      d'.len = 0 + min 2 8 ∧
      (res = .ok () ↔ d'.len = 8) ∧
      (res = .error () → kd'.room = 0 ∧ d'.len = 0 + 2)) ∧
    (∃ cd' kcd' res, CappedDrain.drain_into ⟨4, 0, [9]⟩ ⟨5, []⟩ = some (cd', kcd', res) ∧
      cd'.len = 0 + min 5 4 ∧
      (res = .ok () ↔ cd'.len = 4) ∧
      (res = .error () → kcd'.room = 0 ∧ cd'.len = 0 + 5)) :=
  transfer_stop_conditions ⟨0, [5]⟩ ⟨0, 4, [0]⟩ ⟨0, [3]⟩ ⟨4, 0, [9]⟩
    [true] [false] ⟨2, []⟩ ⟨5, []⟩
    (by decide) (by decide) (by decide) (by decide) (by decide) (by decide)

/-- Bit-level absorption: `(x ||| b) &&& b = b`, the net effect of the
source's `dst[i] |= byte; dst[i] &= byte;` pair. -/
theorem lor_land_absorb (x b : Nat) : (x ||| b) &&& b = b := by
  apply Nat.eq_of_testBit_eq
  intro i
  rw [Nat.testBit_and, Nat.testBit_or]
  cases hb : b.testBit i <;> simp [hb]

/-- The byte-copy loop of `read` only stores into `dst`, so it preserves
the destination length. -/
theorem BitSlice.readLoop_length (s : BitSlice) (dst : List Nat) :
    ∀ n d, s.readLoop dst n = some d → d.length = dst.length := by
  intro n
  induction n with
  | zero =>
    intro d h
    simp only [readLoop, Option.some.injEq] at h
    rw [← h]
  | succ n ih =>
    intro d h
    simp only [readLoop] at h
    rcases hl : s.readLoop dst n with _ | d1
    · simp only [hl] at h
      exact absurd h (by simp)
    · simp only [hl] at h
      rcases hb : s.byte_at_offset (n * 8) with _ | ev
      · simp only [hb] at h
        exact absurd h (by simp)
      · rcases ev with e | v
        · simp only [hb] at h
          exact absurd h (by simp)
        · simp only [hb] at h
          by_cases hlen : dst.length ≤ n
          · rw [if_pos hlen] at h
            exact absurd h (by simp)
          · rw [if_neg hlen] at h
            have h' := Option.some.inj h
            rw [← h', List.length_set]
            exact ih d1 hl

/-- C5 amended: on every successful `read(dst, bits)` whose moved bit
count `n` has a nonzero remainder `rem = n % 8`, the destination's last
touched byte `dst[n / 8]` is *overwritten entirely* with the masked tail
value: its top `rem` bits hold the bits read from the source and its
lower `8 - rem` bits are set to zero — the prior contents of that byte
are not preserved. -/
theorem read_tail_byte_is_masked_value
    (s s' : BitSlice) (dst dst' : List Nat) (bits n : Nat)
    (h : s.read dst bits = some (.ok (s', dst', n)))
    (hr : n % 8 ≠ 0) :
    dst'.getD (n / 8) 0
      = s.data_at_offsetD ((n / 8) * 8) (n % 8) &&& ((255 <<< (8 - n % 8)) % 256) ∧
    dst'.getD (n / 8) 0 &&& (255 >>> (n % 8)) = 0 := by
  simp only [BitSlice.read] at h
  set B := if bits > s.remaining then s.remaining else bits with hB
  by_cases h0 : dst.length * 8 < B
  · rw [if_pos h0] at h
    exact absurd h (by simp)
  · rw [if_neg h0] at h
    rcases hl : s.readLoop dst (B / 8) with _ | dst1
    · simp only [hl] at h
      exact absurd h (by simp)
    · simp only [hl] at h
      by_cases hrem : B % 8 ≠ 0
      case neg =>
        rw [if_neg hrem] at h
        rcases hadv : s.advance B with ⟨r, s''⟩
        simp only [hadv] at h
        cases r with
        | error e => exact absurd h (by simp)
        | ok a =>
          simp only [Option.some.injEq, Except.ok.injEq, Prod.mk.injEq] at h
          obtain ⟨h1, h2, h3⟩ := h
          subst h3
          exact absurd hr hrem
      case pos =>
        rw [if_pos hrem] at h
        by_cases hlen2 : dst.length < B / 8 + 1
        · rw [if_pos hlen2] at h
          exact absurd h (by simp)
        · rw [if_neg hlen2] at h
          rcases hda : s.data_at_offset (B / 8 * 8) (B % 8) with _ | ev
          · simp only [hda] at h
            exact absurd h (by simp)
          · rcases ev with e | v
            · simp only [hda] at h
              exact absurd h (by simp)
            · simp only [hda] at h
              rcases hadv : s.advance B with ⟨r, s''⟩
              simp only [hadv] at h
              cases r with
              | error e => exact absurd h (by simp)
              | ok a =>
                simp only [Option.some.injEq, Except.ok.injEq, Prod.mk.injEq] at h
                obtain ⟨h1, h2, h3⟩ := h
                subst h3
                subst h2
                have hlen1 : dst1.length = dst.length := s.readLoop_length dst _ dst1 hl
                have hidx : B / 8 < dst1.length := by omega
                have hget : (dst1.set (B / 8)
                      ((dst1.getD (B / 8) 0 ||| (v &&& ((255 <<< (8 - B % 8)) % 256)))
                        &&& (v &&& ((255 <<< (8 - B % 8)) % 256)))).getD (B / 8) 0
                    = v &&& ((255 <<< (8 - B % 8)) % 256) := by
                  rw [List.getD_eq_getElem?_getD, List.getElem?_set_self hidx,
                    Option.getD_some, lor_land_absorb]
                constructor
                · rw [hget]
                  unfold BitSlice.data_at_offsetD
                  rw [hda]
                · rw [hget, Nat.and_assoc]
                  have hm : ((255 <<< (8 - B % 8)) % 256) &&& (255 >>> (B % 8)) = 0 := by
                    have hb8 : B % 8 < 8 := Nat.mod_lt _ (by omega)
                    generalize hgen : B % 8 = r at hrem hb8 ⊢
                    interval_cases r
                    · exact absurd rfl hrem
                    all_goals decide
                  rw [hm, Nat.and_zero]

/-- Witness for the amended C5 at the concrete input of the
counterexample: reading 1 bit of `[0x00]` into `[0xFF]`. -/
theorem read_tail_byte_is_masked_value_witness :
    ([0] : List Nat).getD (1 / 8) 0
      = (BitSlice.new [0]).data_at_offsetD ((1 / 8) * 8) (1 % 8)
        &&& ((255 <<< (8 - 1 % 8)) % 256) ∧
    ([0] : List Nat).getD (1 / 8) 0 &&& (255 >>> (1 % 8)) = 0 :=
  read_tail_byte_is_masked_value (BitSlice.new [0]) ⟨[0], 1, 1⟩ [255] [0] 1 1
    rfl (by decide)
